import Mathlib

/-!
Shallow embedding of `smb_processor_and_poster.py` (repository `smb_read`).

Python strings are modelled as `List Char` (code points), zoned timestamps as
`Int` (instants compare as integers), file contents as `List Nat` (bytes).
The remote fetch step (download + read + base64 input) and the MIME table are
external collaborators and appear as function parameters.
-/

namespace SmbRead

/-- Python strings, as their list of code points. -/
abbrev Str := List Char

/-- Splitting at the first occurrence of a character: models Python
`s.split(c, 1)` returning the two pieces, or `none` when `c ∉ s`. -/
def splitFirst (c : Char) : Str → Option (Str × Str)
  | [] => none
  | x :: xs =>
    if x = c then some ([], xs)
    else (splitFirst c xs).map (fun p => (x :: p.1, p.2))

/-- Splitting at the last occurrence of a character. -/
def splitLast (c : Char) (l : Str) : Option (Str × Str) :=
  match splitFirst c l.reverse with
  | none => none
  | some (post, pre) => some (pre.reverse, post.reverse)

/-- Extension part of `os.path.splitext(name)[1]` for a bare filename
(no path separators): everything from the last `.` on, except that a name
whose characters before the last dot are all dots has no extension. -/
def splitextExt (name : Str) : Str :=
  match splitLast '.' name with
  | none => []
  | some (stem, after) =>
    if stem.all (fun ch => ch = '.') then [] else '.' :: after

/-- Python `str.lower()` (ASCII part, which is all the gate compares). -/
def lowerStr (s : Str) : Str := s.map Char.toLower

/-- Lowercased extension of a filename, as computed at the gate and the sort key. -/
def extOf (name : Str) : Str := lowerStr (splitextExt name)

/-- The helper `extract_common_name` from the source: split on the first `_`,
then keep the remainder up to (excluding) its first `.`; `none` otherwise. -/
def extract_common_name (filename : Str) : Option Str :=
  match splitFirst '_' filename with
  | none => none
  | some (_, name_with_ext) =>
    match splitFirst '.' name_with_ext with
    | none => none
    | some (common, _) => some common

/-- The dictionary `EXT_ORDER` with default 999, as used by the sort key. -/
def EXT_ORDER (ext : Str) : Nat :=
  if ext = ".json".data then 0 else if ext = ".pdf".data then 1 else 999

inductive EntryType
  | file
  | directory
deriving DecidableEq

/-- One item of the directory listing, as built by `SMBClient.list_files`. -/
structure DirectoryEntry where
  name : Str
  etype : EntryType
  path : Str
  size_bytes : Option Int
  last_write_time : Option Int
  creation_time : Option Int
deriving DecidableEq

/-- The source's `sort_by_extension` key function. -/
def sort_by_extension (item : DirectoryEntry) : Nat := EXT_ORDER (extOf item.name)

/-- Change filter from the main loop: with a watermark present an item is kept
only when its `last_write_time` is present and strictly greater. -/
def should_include (filter_since_time : Option Int) (item : DirectoryEntry) : Bool :=
  match filter_since_time with
  | none => true
  | some t =>
    match item.last_write_time with
    | none => false
    | some lw => decide (t < lw)

/-- Running maximum update: `if item[ts] and (mx is None or item[ts] > mx)`. -/
def updMax (cur : Option Int) (v : Option Int) : Option Int :=
  match v with
  | none => cur
  | some x =>
    match cur with
    | none => some x
    | some m => if m < x then some x else some m

/-- State accumulated by the filter-and-classify loop over the listing. -/
structure Phase1State where
  groups : List (Str × List DirectoryEntry)
  others : List DirectoryEntry
  maxLwt : Option Int
  maxCreate : Option Int

/-- Append an item to its group, models `raw_grouped_files[common_name].append(item)`
on an insertion-ordered dict. -/
def addToGroup (k : Str) (e : DirectoryEntry) :
    List (Str × List DirectoryEntry) → List (Str × List DirectoryEntry)
  | [] => [(k, [e])]
  | (k', v) :: rest =>
    if k' = k then (k', v ++ [e]) :: rest else (k', v) :: addToGroup k e rest

/-- Classification of an included item: grouped when it is a file with a truthy
path and a truthy extracted identifier, otherwise appended to the other items. -/
def classify (st : Phase1State) (item : DirectoryEntry) : Phase1State :=
  if item.etype = EntryType.file ∧ item.path ≠ [] then
    match extract_common_name item.name with
    | some common_name =>
      if common_name ≠ [] then
        { st with groups := addToGroup common_name item st.groups }
      else { st with others := st.others ++ [item] }
    | none => { st with others := st.others ++ [item] }
  else { st with others := st.others ++ [item] }

/-- One iteration of the `for item in initial_file_list` loop. -/
def phase1Step (w : Option Int) (st : Phase1State) (item : DirectoryEntry) : Phase1State :=
  if should_include w item then
    classify
      { st with
        maxLwt := updMax st.maxLwt item.last_write_time
        maxCreate := updMax st.maxCreate item.creation_time }
      item
  else st

/-- The whole filter-and-classify loop over the listing. -/
def phase1 (w : Option Int) (entries : List DirectoryEntry) : Phase1State :=
  entries.foldl (phase1Step w) ⟨[], [], none, none⟩

/-- The base64 alphabet. -/
def b64Alphabet : Str :=
  "ABCDEFGHIJKLMNOPQRSTUVWXYZabcdefghijklmnopqrstuvwxyz0123456789+/".data

/-- Character of the base64 alphabet at a 6-bit index. -/
def b64Char (n : Nat) : Char := b64Alphabet.getD n 'A'

/-- Standard base64 of a byte sequence, models `base64.b64encode`. -/
def b64encode : List Nat → Str
  | [] => []
  | [a] => [b64Char (a / 4), b64Char (a % 4 * 16), '=', '=']
  | [a, b] => [b64Char (a / 4), b64Char (a % 4 * 16 + b / 16), b64Char (b % 16 * 4), '=']
  | a :: b :: c :: rest =>
    b64Char (a / 4) :: b64Char (a % 4 * 16 + b / 16) ::
      b64Char (b % 16 * 4 + c / 64) :: b64Char (c % 64) :: b64encode rest

/-- Outcome of downloading one file and reading its bytes back: download may
fail (`download_file` returns `None`), the read/encode step may raise, or the
bytes are obtained. -/
inductive FetchResult
  | downloadFail
  | readFail
  | ok (content : List Nat)
deriving DecidableEq

/-- The basename of a path: after the last `/`. -/
def basenameOf (p : Str) : Str :=
  match splitLast '/' p with
  | none => p
  | some (_, post) => post

/-- A group member together with its staging results, the fields added to the
copied item dict in the group loop. -/
structure StagedFile where
  entry : DirectoryEntry
  local_path : Option Str
  download_success : Bool
  blob : Option Str
  mime_type : Option Str
deriving DecidableEq

/-- Staging of one group member: download, read, base64-encode and guess the
MIME type; any failure leaves `download_success = false` with no payload. -/
def stageFile (d : Str → FetchResult) (gm : Str → Option Str) (tempDir : Str)
    (item : DirectoryEntry) : StagedFile :=
  if item.etype = EntryType.file then
    match d item.path with
    | FetchResult.downloadFail => ⟨item, none, false, none, none⟩
    | FetchResult.readFail =>
      ⟨item, some (tempDir ++ '/' :: basenameOf item.path), false, none, none⟩
    | FetchResult.ok content =>
      let lp := tempDir ++ '/' :: basenameOf item.path
      ⟨item, some lp, true, some (b64encode content),
        some ((gm lp).getD "application/octet-stream".data)⟩
  else ⟨item, none, false, none, none⟩

/-- Gate test: some member has extension `.json` (after lowercasing). -/
def groupHasJson (g : List DirectoryEntry) : Bool :=
  g.any (fun e => extOf e.name = ".json".data)

/-- Gate test: some member has extension `.pdf` (after lowercasing). -/
def groupHasPdf (g : List DirectoryEntry) : Bool :=
  g.any (fun e => extOf e.name = ".pdf".data)

/-- One entry of `processed_groups_list`. -/
structure GroupInfo where
  common_name : Str
  files : List StagedFile
deriving DecidableEq

/-- Ordering used by `group.sort(key=sort_by_extension)`. -/
def extLE (a b : DirectoryEntry) : Prop := sort_by_extension a ≤ sort_by_extension b

instance : DecidableRel extLE := fun a b => Nat.decLe _ _

instance : IsTotal DirectoryEntry extLE := ⟨fun a b => Nat.le_total _ _⟩

instance : IsTrans DirectoryEntry extLE := ⟨fun _ _ _ => Nat.le_trans⟩

/-- Python string `<`: lexicographic comparison by code point. -/
def pyStrLt : Str → Str → Bool
  | [], [] => false
  | [], _ :: _ => true
  | _ :: _, [] => false
  | a :: xs, b :: ys =>
    if a.toNat < b.toNat then true else if b.toNat < a.toNat then false else pyStrLt xs ys

/-- The order in which `sorted(...)` arranges Python strings. -/
def pyStrLE (a b : Str) : Prop := pyStrLt b a = false

instance : DecidableRel pyStrLE := fun a b => instDecidableEqBool (pyStrLt b a) false

/-- Value of `raw_grouped_files[k]` (with the defaultdict default `[]`). -/
def lookupGroup (k : Str) (gs : List (Str × List DirectoryEntry)) : List DirectoryEntry :=
  match gs.find? (fun kv => kv.1 == k) with
  | some kv => kv.2
  | none => []

/-- Keys of the raw group dict in insertion order. -/
def keysOf (gs : List (Str × List DirectoryEntry)) : List Str := gs.map Prod.fst

/-- The iteration order `sorted(raw_grouped_files.keys())`. -/
def sortedKeys (gs : List (Str × List DirectoryEntry)) : List Str :=
  List.insertionSort pyStrLE (keysOf gs)

/-- The per-group loop: gate on json+pdf presence, sort the admitted group by
extension priority, stage every member, and collect the admitted groups. -/
def processGroups (d : Str → FetchResult) (gm : Str → Option Str) (tempDir : Str)
    (gs : List (Str × List DirectoryEntry)) : List GroupInfo :=
  (sortedKeys gs).foldl
    (fun acc k =>
      let group := lookupGroup k gs
      if groupHasJson group && groupHasPdf group then
        acc ++ [⟨k, (List.insertionSort extLE group).map (stageFile d gm tempDir)⟩]
      else acc)
    []

/-- One delivery envelope (a `send_data_item` dict). -/
structure Payload where
  blob : Str
  filename : Str
  mime : Option Str
  smb_path : Str
  common_name : Str
  last_write_time : Option Int
  creation_time : Option Int
  size_bytes : Option Int
deriving DecidableEq

/-- Delivery filter, the Python truthiness test
`file_item["download_success"] and file_item["blob"]`. -/
def payloadOk (fi : StagedFile) : Bool :=
  fi.download_success &&
    (match fi.blob with
     | some s => !s.isEmpty
     | none => false)

/-- Envelope built from a staged file of a group. -/
def mkPayload (common_name : Str) (fi : StagedFile) : Payload :=
  ⟨fi.blob.getD [], fi.entry.name, fi.mime_type, fi.entry.path, common_name,
    fi.entry.last_write_time, fi.entry.creation_time, fi.entry.size_bytes⟩

/-- The `post_payloads` construction loop. -/
def buildPayloads (groups : List GroupInfo) : List Payload :=
  groups.foldl
    (fun acc gi =>
      gi.files.foldl
        (fun acc2 fi => if payloadOk fi then acc2 ++ [mkPayload gi.common_name fi] else acc2)
        acc)
    []

/-- Observable result of one run of `process_and_post_data` after a
successful connection: the admitted groups, the other items, the payload list,
the envelopes actually POSTed, the persisted watermark (saved exactly when
`some`), the diagnostic creation-time maximum, and the exit code. -/
structure RunResult where
  groups : List GroupInfo
  others : List DirectoryEntry
  payloads : List Payload
  posts : List Payload
  savedWatermark : Option Int
  maxCreate : Option Int
  exitCode : Nat

/-- The pipeline of `process_and_post_data` from the listing on: filter and
classify, gate and stage per group, build payloads, POST one request per
payload when a URL is configured, and persist the maximum included
`last_write_time` when there is one. Per-item failures are all caught in the
source, so the run reaches the end with exit code 0. -/
def runPipeline (w : Option Int) (entries : List DirectoryEntry)
    (d : Str → FetchResult) (gm : Str → Option Str) (tempDir : Str)
    (hasPostUrl : Bool) : RunResult :=
  let p1 := phase1 w entries
  let groups := processGroups d gm tempDir p1.groups
  let payloads := buildPayloads groups
  ⟨groups, p1.others, payloads, if hasPostUrl then payloads else [],
    p1.maxLwt, p1.maxCreate, 0⟩

/-- Abstraction of a parsed JSON document, for the watermark file model. -/
inductive JsonValue
  | jnull
  | jbool (b : Bool)
  | jnum (n : Int)
  | jstr (s : Str)
  | jarr (elems : List JsonValue)
  | jobj (fields : List (Str × JsonValue))

/-- State of the backing watermark file as seen by `load_last_run_timestamp`:
absent, existing but unreadable (open raises a non-FileNotFound OS error),
existing with content that is not valid JSON, or existing with parsed content. -/
inductive FileReadState
  | absent
  | unreadable
  | malformedText
  | parsed (v : JsonValue)

/-- Uncaught Python exceptions that can escape `load_last_run_timestamp`. -/
inductive PyFatal
  | osError
  | attributeError
deriving DecidableEq

/-- Dictionary lookup `data.get(key)` on the parsed object's entries. -/
def dictGet (fields : List (Str × JsonValue)) (k : Str) : Option JsonValue :=
  match fields.find? (fun kv => kv.1 == k) with
  | some kv => some kv.2
  | none => none

/-- The source's `load_last_run_timestamp`: `None` when the file is absent;
`None` when `json.load` raises a decode error (caught); `.get` of the key when
the document is an object. An unreadable file raises an uncaught OS error and
a document that is not an object raises an uncaught attribute error on `.get`. -/
def load_last_run_timestamp (fs : FileReadState) : Except PyFatal (Option JsonValue) :=
  match fs with
  | FileReadState.absent => Except.ok none
  | FileReadState.unreadable => Except.error PyFatal.osError
  | FileReadState.malformedText => Except.ok none
  | FileReadState.parsed v =>
    match v with
    | JsonValue.jobj fields => Except.ok (dictGet fields "last_write_time".data)
    | _ => Except.error PyFatal.attributeError

/-! ### Spec-side characterizations and concrete example inputs -/

/-- Spec-side delivered sequence: flattened per-group envelopes over the
admitted groups in order, members in member order, keeping the members that
pass the delivery filter. Written from the spec's words, for comparison with
the code's payload-construction loop. -/
def deliveredSpec (groups : List GroupInfo) : List Payload :=
  (groups.map (fun gi => (gi.files.filter payloadOk).map (mkPayload gi.common_name))).flatten

/-- Spec-side delivered sequence filtered only to `staged = true`, exactly as
claim C5 words the delivery filter (no non-empty-payload condition). -/
def deliveredSpecStagedOnly (groups : List GroupInfo) : List Payload :=
  (groups.map (fun gi =>
    (gi.files.filter (fun fi => fi.download_success)).map (mkPayload gi.common_name))).flatten

/-- Example listing: one group named `AA` holding a json and a pdf file. -/
def eJson : DirectoryEntry :=
  ⟨"20250101000000_AA.json".data, EntryType.file,
    "/dir/20250101000000_AA.json".data, some 5, some 100, some 90⟩

/-- The pdf member of the example group. -/
def ePdf : DirectoryEntry :=
  ⟨"20250101000000_AA.pdf".data, EntryType.file,
    "/dir/20250101000000_AA.pdf".data, some 0, some 101, some 91⟩

/-- The example listing. -/
def exEntries : List DirectoryEntry := [eJson, ePdf]

/-- Example fetch oracle: the pdf file is empty, everything else has two bytes. -/
def dEx : Str → FetchResult :=
  fun p => if p = ePdf.path then FetchResult.ok [] else FetchResult.ok [1, 2]

/-- Example MIME oracle: nothing recognized (forces the generic default). -/
def gmEx : Str → Option Str := fun _ => none

/-- Example temporary directory path. -/
def tdEx : Str := "/tmp/dl".data

/-- The admitted group produced by the example run. -/
def exGroup : GroupInfo :=
  ⟨"AA".data, [stageFile dEx gmEx tdEx eJson, stageFile dEx gmEx tdEx ePdf]⟩

/-- First member of an example group holding only pdf files. -/
def ePdfOnly1 : DirectoryEntry :=
  ⟨"x_BB.pdf".data, EntryType.file, "/dir/x_BB.pdf".data, some 1, some 50, none⟩

/-- Second member of an example group holding only pdf files. -/
def ePdfOnly2 : DirectoryEntry :=
  ⟨"y_BB.pdf".data, EntryType.file, "/dir/y_BB.pdf".data, some 2, some 51, none⟩

/-- Example listing whose only group has pdf members only (never admitted). -/
def exEntriesPdfOnly : List DirectoryEntry := [ePdfOnly1, ePdfOnly2]

/-! ### Basic lemmas -/

theorem charToNat_inj {a b : Char} (h : a.toNat = b.toNat) : a = b :=
  Char.eq_of_val_eq (UInt32.ext h)

theorem splitFirst_eq_none {c : Char} : ∀ {l : Str}, splitFirst c l = none ↔ c ∉ l
  | [] => by simp [splitFirst]
  | x :: xs => by
    by_cases h : x = c
    · simp [splitFirst, h]
    · have hx : ¬ c = x := fun hc => h hc.symm
      have hrec : splitFirst c xs = none ↔ c ∉ xs := splitFirst_eq_none
      simp [splitFirst, h, Option.map_eq_none', hrec, hx]

theorem pyStrLt_asymm : ∀ {a b : Str}, pyStrLt a b = true → pyStrLt b a = false
  | [], [], h => by simp [pyStrLt] at h
  | [], _ :: _, _ => rfl
  | _ :: _, [], h => by simp [pyStrLt] at h
  | x :: xs, y :: ys, h => by
    simp only [pyStrLt] at h ⊢
    rcases Nat.lt_trichotomy x.toNat y.toNat with hlt | heq | hgt
    · have h1 : ¬ y.toNat < x.toNat := Nat.lt_asymm hlt
      simp [hlt, h1]
    · simp only [heq, Nat.lt_irrefl, if_false] at h ⊢
      exact pyStrLt_asymm h
    · have h1 : ¬ x.toNat < y.toNat := Nat.lt_asymm hgt
      simp [hgt, h1] at h
  termination_by a b => a.length

theorem pyStrLt_connex : ∀ {a b : Str}, a ≠ b → pyStrLt a b = true ∨ pyStrLt b a = true
  | [], [], h => absurd rfl h
  | [], _ :: _, _ => Or.inl rfl
  | _ :: _, [], _ => Or.inr rfl
  | x :: xs, y :: ys, h => by
    rcases Nat.lt_trichotomy x.toNat y.toNat with hlt | heq | hgt
    · exact Or.inl (by simp [pyStrLt, hlt])
    · have hxy : x = y := charToNat_inj heq
      subst hxy
      have hne : xs ≠ ys := fun he => h (by rw [he])
      rcases pyStrLt_connex hne with h1 | h1
      · exact Or.inl (by simp [pyStrLt, Nat.lt_irrefl, h1])
      · exact Or.inr (by simp [pyStrLt, Nat.lt_irrefl, h1])
    · exact Or.inr (by simp [pyStrLt, hgt])
  termination_by a b => a.length

theorem pyStrLt_trans : ∀ {a b c : Str},
    pyStrLt a b = true → pyStrLt b c = true → pyStrLt a c = true
  | [], [], _, h, _ => by simp [pyStrLt] at h
  | _ :: _, [], _, h, _ => by simp [pyStrLt] at h
  | [], _ :: _, [], _, h2 => by simp [pyStrLt] at h2
  | [], _ :: _, _ :: _, _, _ => rfl
  | _ :: _, _ :: _, [], _, h2 => by simp [pyStrLt] at h2
  | x :: xs, y :: ys, z :: zs, h1, h2 => by
    simp only [pyStrLt] at h1 h2 ⊢
    rcases Nat.lt_trichotomy x.toNat y.toNat with hxy | hxy | hxy
    · rcases Nat.lt_trichotomy y.toNat z.toNat with hyz | hyz | hyz
      · have : x.toNat < z.toNat := Nat.lt_trans hxy hyz
        simp [this]
      · have : x.toNat < z.toNat := by omega
        simp [this]
      · have hy : ¬ y.toNat < z.toNat := Nat.lt_asymm hyz
        simp [hy, hyz] at h2
    · rcases Nat.lt_trichotomy y.toNat z.toNat with hyz | hyz | hyz
      · have : x.toNat < z.toNat := by omega
        simp [this]
      · have hxz : ¬ x.toNat < z.toNat := by omega
        have hzx : ¬ z.toNat < x.toNat := by omega
        have ha : ¬ x.toNat < y.toNat := by omega
        have hb : ¬ y.toNat < x.toNat := by omega
        have hc : ¬ y.toNat < z.toNat := by omega
        have hd : ¬ z.toNat < y.toNat := by omega
        simp only [ha, hb, if_false] at h1
        simp only [hc, hd, if_false] at h2
        simp only [hxz, hzx, if_false]
        exact pyStrLt_trans h1 h2
      · have hy : ¬ y.toNat < z.toNat := Nat.lt_asymm hyz
        simp [hy, hyz] at h2
    · have hx : ¬ x.toNat < y.toNat := Nat.lt_asymm hxy
      simp [hx, hxy] at h1
  termination_by a b c => a.length

theorem pyStrLE_trans {a b c : Str} (hab : pyStrLE a b) (hbc : pyStrLE b c) : pyStrLE a c := by
  unfold pyStrLE at *
  cases hca : pyStrLt c a with
  | false => rfl
  | true =>
    by_cases hcb : c = b
    · rw [hcb] at hca
      rw [hca] at hab
      cases hab
    · rcases pyStrLt_connex hcb with h1 | h1
      · rw [h1] at hbc
        cases hbc
      · have h2 := pyStrLt_trans h1 hca
        rw [h2] at hab
        cases hab

instance : IsTotal Str pyStrLE :=
  ⟨fun a b => by
    unfold pyStrLE
    by_cases h : pyStrLt b a = true
    · exact Or.inr (pyStrLt_asymm h)
    · exact Or.inl (by simpa using h)⟩

instance : IsTrans Str pyStrLE := ⟨fun _ _ _ => pyStrLE_trans⟩

theorem foldl_filter_append {α β : Type} (c : α → Bool) (f : α → β) :
    ∀ (ks : List α) (acc : List β),
      ks.foldl (fun a k => if c k then a ++ [f k] else a) acc = acc ++ (ks.filter c).map f
  | [], acc => by simp
  | k :: ks, acc => by
    simp only [List.foldl_cons, List.filter_cons]
    by_cases h : c k = true
    · simp [h, foldl_filter_append c f ks]
    · simp [h, foldl_filter_append c f ks]

theorem foldl_append_flatten {α β : Type} (g : α → List β) :
    ∀ (l : List α) (acc : List β),
      l.foldl (fun a x => a ++ g x) acc = acc ++ (l.map g).flatten
  | [], acc => by simp
  | x :: l, acc => by simp [foldl_append_flatten g l]

/-! ### C1: the change filter -/

/-- C1: an entry is included iff the watermark is absent, or the entry's
`last_write_time` is present and strictly greater than the watermark; with
watermark `T` an entry whose `last_write_time` equals `T` is excluded while
`T + 1` is included; and `creation_time` never affects inclusion. -/
theorem c1_change_filter :
    (∀ (w : Option Int) (e : DirectoryEntry),
      should_include w e = true ↔
        (w = none ∨ ∃ t l, w = some t ∧ e.last_write_time = some l ∧ t < l))
    ∧ (∀ (t : Int) (e : DirectoryEntry),
        should_include (some t) { e with last_write_time := some t } = false)
    ∧ (∀ (t : Int) (e : DirectoryEntry),
        should_include (some t) { e with last_write_time := some (t + 1) } = true)
    ∧ (∀ (w : Option Int) (e : DirectoryEntry) (c : Option Int),
        should_include w { e with creation_time := c } = should_include w e) := by
  refine ⟨fun w e => ?_, fun t e => ?_, fun t e => ?_, fun w e c => rfl⟩
  · cases w with
    | none => simp [should_include]
    | some t =>
      cases h : e.last_write_time with
      | none => simp [should_include, h]
      | some l => simp [should_include, h]
  · simp [should_include]
  · simp [should_include]

/-! ### C8: watermark load tolerance -/

/-- C8 counterexample: two backing-file states the claim calls tolerated are
fatal in the code: an unreadable file raises an uncaught OS error (the catch
list has only the JSON decode, file-not-found and key errors), and a file
holding valid JSON that is not an object raises an uncaught attribute error
on `.get`. -/
theorem c8_counterexample :
    load_last_run_timestamp FileReadState.unreadable = Except.error PyFatal.osError
    ∧ load_last_run_timestamp (FileReadState.parsed (JsonValue.jarr []))
        = Except.error PyFatal.attributeError :=
  ⟨rfl, rfl⟩

/-- C8 (amended): loading yields `None` and is non-fatal when the file is
absent, when its content is not valid JSON, or when it parses to an object
lacking the key; a present key's value is returned unvalidated; but an
unreadable file and a file whose content is valid JSON that is not an object
raise uncaught (fatal) errors. -/
theorem c8_load_tolerance :
    load_last_run_timestamp FileReadState.absent = Except.ok none
    ∧ load_last_run_timestamp FileReadState.malformedText = Except.ok none
    ∧ (∀ fields, dictGet fields "last_write_time".data = none →
        load_last_run_timestamp (FileReadState.parsed (JsonValue.jobj fields)) = Except.ok none)
    ∧ (∀ fields v, dictGet fields "last_write_time".data = some v →
        load_last_run_timestamp (FileReadState.parsed (JsonValue.jobj fields))
          = Except.ok (some v))
    ∧ load_last_run_timestamp FileReadState.unreadable = Except.error PyFatal.osError
    ∧ (∀ j : JsonValue, (∀ fields, j ≠ JsonValue.jobj fields) →
        load_last_run_timestamp (FileReadState.parsed j) = Except.error PyFatal.attributeError) := by
  refine ⟨rfl, rfl, fun fields h => ?_, fun fields v h => ?_, rfl, fun j hj => ?_⟩
  · simp [load_last_run_timestamp, h]
  · simp [load_last_run_timestamp, h]
  · cases j with
    | jobj fields => exact absurd rfl (hj fields)
    | jnull => rfl
    | jbool b => rfl
    | jnum n => rfl
    | jstr s => rfl
    | jarr elems => rfl

/-- C8 witness: the amended theorem applied at concrete inputs. -/
theorem c8_witness :
    load_last_run_timestamp (FileReadState.parsed (JsonValue.jobj [])) = Except.ok none
    ∧ load_last_run_timestamp (FileReadState.parsed (JsonValue.jobj
        [("last_write_time".data, JsonValue.jstr "2025-01-01T00:00:00".data)]))
        = Except.ok (some (JsonValue.jstr "2025-01-01T00:00:00".data))
    ∧ load_last_run_timestamp (FileReadState.parsed (JsonValue.jarr []))
        = Except.error PyFatal.attributeError :=
  ⟨c8_load_tolerance.2.2.1 [] rfl,
   c8_load_tolerance.2.2.2.1 _ _ (by simp [dictGet]),
   c8_load_tolerance.2.2.2.2.2 (JsonValue.jarr []) (fun fields h => by cases h)⟩

/-! ### Lemmas on the grouping fold -/

theorem addToGroup_mem_elim {k0 : Str} {e0 : DirectoryEntry} :
    ∀ {gs : List (Str × List DirectoryEntry)} {k : Str} {g : List DirectoryEntry},
      (k, g) ∈ addToGroup k0 e0 gs → ∀ e ∈ g,
        (k = k0 ∧ e = e0) ∨ ∃ g', (k, g') ∈ gs ∧ e ∈ g'
  | [], k, g, hg, e, he => by
    simp only [addToGroup, List.mem_singleton, Prod.mk.injEq] at hg
    rw [hg.2] at he
    simp only [List.mem_singleton] at he
    exact Or.inl ⟨hg.1, he⟩
  | (k1, v) :: rest, k, g, hg, e, he => by
    by_cases h1 : k1 = k0
    · simp only [addToGroup, if_pos h1, List.mem_cons, Prod.mk.injEq] at hg
      rcases hg with ⟨hk, hgv⟩ | hg
      · rw [hgv] at he
        rcases List.mem_append.mp he with hv | he0
        · exact Or.inr ⟨v, by rw [hk]; exact List.mem_cons_self _ _, hv⟩
        · simp only [List.mem_singleton] at he0
          exact Or.inl ⟨hk.trans h1, he0⟩
      · exact Or.inr ⟨g, List.mem_cons_of_mem _ hg, he⟩
    · simp only [addToGroup, if_neg h1, List.mem_cons, Prod.mk.injEq] at hg
      rcases hg with ⟨hk, hgv⟩ | hg
      · exact Or.inr ⟨g, by simp [List.mem_cons, hk, hgv], he⟩
      · rcases addToGroup_mem_elim hg e he with h | ⟨g', hg', he'⟩
        · exact Or.inl h
        · exact Or.inr ⟨g', List.mem_cons_of_mem _ hg', he'⟩

theorem addToGroup_mem_mono {k : Str} {g : List DirectoryEntry} {e : DirectoryEntry}
    (k0 : Str) (e0 : DirectoryEntry) :
    ∀ {gs : List (Str × List DirectoryEntry)}, (k, g) ∈ gs → e ∈ g →
      ∃ g', (k, g') ∈ addToGroup k0 e0 gs ∧ e ∈ g'
  | [], hg, _ => absurd hg (List.not_mem_nil _)
  | (k1, v) :: rest, hg, he => by
    by_cases h1 : k1 = k0
    · simp only [List.mem_cons, Prod.mk.injEq] at hg
      rcases hg with ⟨hk, hgv⟩ | hg
      · refine ⟨v ++ [e0], ?_, ?_⟩
        · simp [addToGroup, if_pos h1, hk]
        · exact List.mem_append.mpr (Or.inl (hgv ▸ he))
      · exact ⟨g, by simp [addToGroup, if_pos h1, List.mem_cons_of_mem _ hg], he⟩
    · simp only [List.mem_cons, Prod.mk.injEq] at hg
      rcases hg with ⟨hk, hgv⟩ | hg
      · exact ⟨g, by simp [addToGroup, if_neg h1, hk, hgv], he⟩
      · rcases addToGroup_mem_mono k0 e0 hg he with ⟨g', hg', he'⟩
        exact ⟨g', by simp [addToGroup, if_neg h1, List.mem_cons_of_mem _ hg'], he'⟩

theorem addToGroup_self (k : Str) (e : DirectoryEntry) :
    ∀ gs, ∃ g', (k, g') ∈ addToGroup k e gs ∧ e ∈ g'
  | [] => ⟨[e], List.mem_singleton_self _, List.mem_singleton_self _⟩
  | (k1, v) :: rest => by
    by_cases h1 : k1 = k
    · exact ⟨v ++ [e], by simp [addToGroup, if_pos h1, h1],
        List.mem_append.mpr (Or.inr (List.mem_singleton_self _))⟩
    · rcases addToGroup_self k e rest with ⟨g', hg', he'⟩
      exact ⟨g', by simp [addToGroup, if_neg h1, List.mem_cons_of_mem _ hg'], he'⟩

theorem keysOf_addToGroup (k0 : Str) (e0 : DirectoryEntry) :
    ∀ gs, keysOf (addToGroup k0 e0 gs) =
      if k0 ∈ keysOf gs then keysOf gs else keysOf gs ++ [k0]
  | [] => by simp [addToGroup, keysOf]
  | (k1, v) :: rest => by
    by_cases h1 : k1 = k0
    · subst h1
      simp [addToGroup, keysOf]
    · have hne : ¬ k0 = k1 := fun h => h1 h.symm
      have ih := keysOf_addToGroup k0 e0 rest
      simp only [addToGroup, if_neg h1, keysOf, List.map_cons] at ih ⊢
      rw [ih]
      by_cases h2 : k0 ∈ List.map Prod.fst rest
      · simp [h2]
      · simp [h2, hne]

theorem phase1Step_groups_grouped {w : Option Int} {st : Phase1State} {e : DirectoryEntry}
    {k0 : Str} (hi : should_include w e = true) (hf : e.etype = EntryType.file)
    (hp : e.path ≠ []) (hx : extract_common_name e.name = some k0) (hk : k0 ≠ []) :
    (phase1Step w st e).groups = addToGroup k0 e st.groups := by
  unfold phase1Step classify
  simp only [hi, if_true, if_pos (And.intro hf hp), hx, if_pos hk]

theorem phase1Step_groups_cases (w : Option Int) (st : Phase1State) (e : DirectoryEntry) :
    (phase1Step w st e).groups = st.groups
    ∨ (should_include w e = true ∧ e.etype = EntryType.file ∧ e.path ≠ [] ∧
        ∃ k0, extract_common_name e.name = some k0 ∧ k0 ≠ [] ∧
          (phase1Step w st e).groups = addToGroup k0 e st.groups) := by
  by_cases hi : should_include w e = true
  · by_cases hf : e.etype = EntryType.file ∧ e.path ≠ []
    · cases hx : extract_common_name e.name with
      | none =>
        left
        unfold phase1Step classify
        simp only [hi, if_true, if_pos hf, hx]
      | some k0 =>
        by_cases hk : k0 ≠ []
        · exact Or.inr ⟨hi, hf.1, hf.2, k0, rfl, hk,
            phase1Step_groups_grouped hi hf.1 hf.2 hx hk⟩
        · left
          unfold phase1Step classify
          simp only [hi, if_true, if_pos hf, hx, if_neg hk]
    · left
      unfold phase1Step classify
      simp only [hi, if_true, if_neg hf]
  · left
    simp only [Bool.not_eq_true] at hi
    simp [phase1Step, hi]

theorem foldl_groups_sound (w : Option Int) :
    ∀ (entries : List DirectoryEntry) (st : Phase1State),
      (∀ k g, (k, g) ∈ st.groups → ∀ e ∈ g,
        extract_common_name e.name = some k ∧ k ≠ []) →
      ∀ k g, (k, g) ∈ (List.foldl (phase1Step w) st entries).groups →
        ∀ e ∈ g, extract_common_name e.name = some k ∧ k ≠ []
  | [], st, hst => hst
  | e0 :: rest, st, hst => by
    rw [List.foldl_cons]
    refine foldl_groups_sound w rest (phase1Step w st e0) ?_
    rcases phase1Step_groups_cases w st e0 with hsame | ⟨_, _, _, k0, hx, hk, hadd⟩
    · rw [hsame]; exact hst
    · rw [hadd]
      intro k g hg e he
      rcases addToGroup_mem_elim hg e he with ⟨hkk, hee⟩ | ⟨g', hg', he'⟩
      · rw [hkk, hee]; exact ⟨hx, hk⟩
      · exact hst k g' hg' e he'

theorem foldl_groups_mono (w : Option Int) :
    ∀ (entries : List DirectoryEntry) (st : Phase1State) (k : Str)
      (g : List DirectoryEntry) (e : DirectoryEntry),
      (k, g) ∈ st.groups → e ∈ g →
      ∃ g', (k, g') ∈ (List.foldl (phase1Step w) st entries).groups ∧ e ∈ g'
  | [], _, k, g, e, hg, he => ⟨g, hg, he⟩
  | e0 :: rest, st, k, g, e, hg, he => by
    rw [List.foldl_cons]
    rcases phase1Step_groups_cases w st e0 with hsame | ⟨_, _, _, k0, _, _, hadd⟩
    · exact foldl_groups_mono w rest _ k g e (by rw [hsame]; exact hg) he
    · rcases addToGroup_mem_mono k0 e0 hg he with ⟨g', hg', he'⟩
      exact foldl_groups_mono w rest _ k g' e (by rw [hadd]; exact hg') he'

theorem foldl_grouped_of_cond (w : Option Int) :
    ∀ (entries : List DirectoryEntry) (st : Phase1State) (e : DirectoryEntry),
      e ∈ entries → should_include w e = true → e.etype = EntryType.file →
      e.path ≠ [] → ∀ k0, extract_common_name e.name = some k0 → k0 ≠ [] →
      ∃ g', (k0, g') ∈ (List.foldl (phase1Step w) st entries).groups ∧ e ∈ g'
  | [], _, e, he, _, _, _, _, _, _ => absurd he (List.not_mem_nil _)
  | e0 :: rest, st, e, he, hi, hf, hp, k0, hx, hk => by
    rw [List.foldl_cons]
    rcases List.mem_cons.mp he with heq | htail
    · subst heq
      have hadd : (phase1Step w st e).groups = addToGroup k0 e st.groups :=
        phase1Step_groups_grouped hi hf hp hx hk
      rcases addToGroup_self k0 e st.groups with ⟨g', hg', he'⟩
      exact foldl_groups_mono w rest _ k0 g' e (by rw [hadd]; exact hg') he'
    · exact foldl_grouped_of_cond w rest _ e htail hi hf hp k0 hx hk

theorem foldl_keys_nodup (w : Option Int) :
    ∀ (entries : List DirectoryEntry) (st : Phase1State),
      (keysOf st.groups).Nodup →
      (keysOf (List.foldl (phase1Step w) st entries).groups).Nodup
  | [], _, hst => hst
  | e0 :: rest, st, hst => by
    rw [List.foldl_cons]
    refine foldl_keys_nodup w rest (phase1Step w st e0) ?_
    rcases phase1Step_groups_cases w st e0 with hsame | ⟨_, _, _, k0, _, _, hadd⟩
    · rw [hsame]; exact hst
    · rw [hadd, keysOf_addToGroup]
      by_cases hmem : k0 ∈ keysOf st.groups
      · rw [if_pos hmem]; exact hst
      · rw [if_neg hmem]
        simp [List.nodup_append, hst, hmem]

theorem foldl_phase1_id (w : Option Int) :
    ∀ (entries : List DirectoryEntry) (st : Phase1State),
      (∀ e ∈ entries, should_include w e = false) →
      List.foldl (phase1Step w) st entries = st
  | [], _, _ => rfl
  | e0 :: rest, st, h => by
    rw [List.foldl_cons]
    have h0 : should_include w e0 = false := h e0 (List.mem_cons_self _ _)
    have hstep : phase1Step w st e0 = st := by simp [phase1Step, h0]
    rw [hstep]
    exact foldl_phase1_id w rest st (fun e he => h e (List.mem_cons_of_mem _ he))

/-! ### Lemmas on the running maximum -/

theorem updMax_v_le (cur : Option Int) (l : Int) :
    ∃ y, updMax cur (some l) = some y ∧ l ≤ y := by
  cases cur with
  | none => exact ⟨l, rfl, le_refl l⟩
  | some m0 =>
    by_cases hlt : m0 < l
    · exact ⟨l, by simp [updMax, hlt], le_refl l⟩
    · exact ⟨m0, by simp [updMax, hlt], by omega⟩

theorem updMax_cur_le (cur v : Option Int) (x : Int) (hx : cur = some x) :
    ∃ y, updMax cur v = some y ∧ x ≤ y := by
  subst hx
  cases v with
  | none => exact ⟨x, rfl, le_refl x⟩
  | some l =>
    by_cases hlt : x < l
    · exact ⟨l, by simp [updMax, hlt], by omega⟩
    · exact ⟨x, by simp [updMax, hlt], le_refl x⟩

theorem updMax_lb {t : Int} {cur v : Option Int}
    (hc : ∀ x, cur = some x → t < x) (hv : ∀ l, v = some l → t < l) :
    ∀ y, updMax cur v = some y → t < y := by
  intro y hy
  cases v with
  | none => exact hc y hy
  | some l =>
    cases cur with
    | none =>
      simp only [updMax] at hy
      cases hy
      exact hv _ rfl
    | some m0 =>
      simp only [updMax] at hy
      by_cases hlt : m0 < l
      · rw [if_pos hlt] at hy
        cases hy
        exact hv _ rfl
      · rw [if_neg hlt] at hy
        cases hy
        exact hc _ rfl

theorem classify_maxLwt (st : Phase1State) (item : DirectoryEntry) :
    (classify st item).maxLwt = st.maxLwt := by
  unfold classify
  by_cases hf : item.etype = EntryType.file ∧ item.path ≠ []
  · rw [if_pos hf]
    cases hx : extract_common_name item.name with
    | none => rfl
    | some k0 => by_cases hk : k0 ≠ [] <;> simp [hk]
  · rw [if_neg hf]

theorem phase1Step_maxLwt (w : Option Int) (st : Phase1State) (item : DirectoryEntry) :
    (phase1Step w st item).maxLwt =
      if should_include w item = true then updMax st.maxLwt item.last_write_time
      else st.maxLwt := by
  unfold phase1Step
  by_cases hi : should_include w item = true
  · simp only [hi, if_true, classify_maxLwt]
  · simp only [Bool.not_eq_true] at hi
    simp [hi]

theorem foldl_maxLwt_mono (w : Option Int) :
    ∀ (entries : List DirectoryEntry) (st : Phase1State) (x : Int),
      st.maxLwt = some x →
      ∃ y, (List.foldl (phase1Step w) st entries).maxLwt = some y ∧ x ≤ y
  | [], _, x, hx => ⟨x, hx, le_refl x⟩
  | e0 :: rest, st, x, hx => by
    rw [List.foldl_cons]
    by_cases hi : should_include w e0 = true
    · have hstep : (phase1Step w st e0).maxLwt = updMax st.maxLwt e0.last_write_time := by
        rw [phase1Step_maxLwt, if_pos hi]
      rcases updMax_cur_le st.maxLwt e0.last_write_time x hx with ⟨y, hy, hxy⟩
      rcases foldl_maxLwt_mono w rest (phase1Step w st e0) y (by rw [hstep, hy]) with
        ⟨z, hz, hyz⟩
      exact ⟨z, hz, le_trans hxy hyz⟩
    · have hstep : (phase1Step w st e0).maxLwt = st.maxLwt := by
        rw [phase1Step_maxLwt, if_neg hi]
      exact foldl_maxLwt_mono w rest _ x (by rw [hstep]; exact hx)

theorem foldl_maxLwt_ub (w : Option Int) :
    ∀ (entries : List DirectoryEntry) (st : Phase1State) (m : Int),
      (List.foldl (phase1Step w) st entries).maxLwt = some m →
      ∀ e ∈ entries, should_include w e = true →
        ∀ l, e.last_write_time = some l → l ≤ m
  | [], _, _, _, e, he, _, _, _ => absurd he (List.not_mem_nil _)
  | e0 :: rest, st, m, hm, e, he, hi, l, hl => by
    rw [List.foldl_cons] at hm
    rcases List.mem_cons.mp he with heq | htail
    · subst heq
      have hstep : (phase1Step w st e).maxLwt = updMax st.maxLwt e.last_write_time := by
        rw [phase1Step_maxLwt, if_pos hi]
      rw [hl] at hstep
      rcases updMax_v_le st.maxLwt l with ⟨y, hy, hly⟩
      rw [hy] at hstep
      rcases foldl_maxLwt_mono w rest (phase1Step w st e) y hstep with ⟨z, hz, hyz⟩
      rw [hz] at hm
      injection hm with hm2
      omega
    · exact foldl_maxLwt_ub w rest (phase1Step w st e0) m hm e htail hi l hl

theorem foldl_maxLwt_lb (t : Int) :
    ∀ (entries : List DirectoryEntry) (st : Phase1State),
      (∀ x, st.maxLwt = some x → t < x) →
      ∀ m, (List.foldl (phase1Step (some t)) st entries).maxLwt = some m → t < m
  | [], _, hst, m, hm => hst m hm
  | e0 :: rest, st, hst, m, hm => by
    rw [List.foldl_cons] at hm
    refine foldl_maxLwt_lb t rest (phase1Step (some t) st e0) ?_ m hm
    intro x hx
    by_cases hi : should_include (some t) e0 = true
    · rw [phase1Step_maxLwt, if_pos hi] at hx
      refine updMax_lb hst ?_ x hx
      intro l hl
      simp only [should_include, hl] at hi
      exact of_decide_eq_true hi
    · rw [phase1Step_maxLwt, if_neg hi] at hx
      exact hst x hx

/-! ### C6: idempotence -/

/-- C6: when a run persists watermark `m`, re-running on the unchanged listing
with watermark `m` includes no entry through the change filter and yields zero
admitted groups. -/
theorem c6_idempotence (w : Option Int) (entries : List DirectoryEntry)
    (d d2 : Str → FetchResult) (gm gm2 : Str → Option Str) (td td2 : Str)
    (u u2 : Bool) (m : Int)
    (h : (runPipeline w entries d gm td u).savedWatermark = some m) :
    (∀ e ∈ entries, should_include (some m) e = false)
    ∧ (runPipeline (some m) entries d2 gm2 td2 u2).groups = [] := by
  have hm : (phase1 w entries).maxLwt = some m := by
    simpa [runPipeline] using h
  have hexcl : ∀ e ∈ entries, should_include (some m) e = false := by
    intro e he
    cases hl : e.last_write_time with
    | none => simp [should_include, hl]
    | some l =>
      have hle : l ≤ m := by
        cases hi : should_include w e with
        | true => exact foldl_maxLwt_ub w entries ⟨[], [], none, none⟩ m hm e he hi l hl
        | false =>
          cases w with
          | none => simp [should_include] at hi
          | some t =>
            have hlt : l ≤ t := by
              simp only [should_include, hl] at hi
              have h2 := of_decide_eq_false hi
              omega
            have htm : t < m := foldl_maxLwt_lb t entries ⟨[], [], none, none⟩
              (by intro x hx; cases hx) m hm
            omega
      simp only [should_include, hl]
      exact decide_eq_false (by omega)
  refine ⟨hexcl, ?_⟩
  have hphase : phase1 (some m) entries = ⟨[], [], none, none⟩ :=
    foldl_phase1_id (some m) entries ⟨[], [], none, none⟩ hexcl
  show processGroups d2 gm2 td2 (phase1 (some m) entries).groups = []
  rw [hphase]
  rfl

/-- C6 witness: the example run persists 101; the re-run admits nothing. -/
theorem c6_witness :
    (∀ e ∈ exEntries, should_include (some 101) e = false)
    ∧ (runPipeline (some 101) exEntries dEx gmEx tdEx true).groups = [] :=
  c6_idempotence none exEntries dEx dEx gmEx gmEx tdEx tdEx true true 101 (by decide)

/-! ### C3: identifier derivation -/

/-- C3: splitting the name on the first underscore and stripping the remainder
from its first dot on yields the identifier; a name without an underscore
yields no identifier; the spec's two examples hold; and every grouped member
derives exactly its group's non-null identifier (so a null-identifier file is
never grouped). -/
theorem c3_identifier_derivation :
    (∀ f : Str, '_' ∉ f → extract_common_name f = none)
    ∧ (∀ (f q r a b : Str), splitFirst '_' f = some (q, r) →
        splitFirst '.' r = some (a, b) → extract_common_name f = some a)
    ∧ extract_common_name "20250725135757_ABC-1234.pdf".data = some "ABC-1234".data
    ∧ extract_common_name "report.pdf".data = none
    ∧ (∀ (w : Option Int) (entries : List DirectoryEntry) (k : Str)
        (g : List DirectoryEntry), (k, g) ∈ (phase1 w entries).groups →
        ∀ e ∈ g, extract_common_name e.name = some k ∧ k ≠ []) := by
  refine ⟨fun f hf => ?_, fun f q r a b hqr hab => ?_, by decide, by decide, ?_⟩
  · unfold extract_common_name
    rw [splitFirst_eq_none.mpr hf]
  · simp only [extract_common_name, hqr, hab]
  · intro w entries k g hg e he
    exact foldl_groups_sound w entries ⟨[], [], none, none⟩
      (fun k g hg => absurd hg (List.not_mem_nil _)) k g hg e he

/-- C3 witness: the derivation rules applied at concrete names. -/
theorem c3_witness :
    extract_common_name "20250101_report.pdf".data = some "report".data
    ∧ extract_common_name "noSep.pdf".data = none :=
  ⟨c3_identifier_derivation.2.1 "20250101_report.pdf".data "20250101".data
      "report.pdf".data "report".data "pdf".data (by decide) (by decide),
   c3_identifier_derivation.1 "noSep.pdf".data (by decide)⟩

/-! ### C10: grouping membership condition -/

/-- C10: a filtered file entry with a truthy path is grouped iff its name has
an underscore and the remainder after the first underscore has a dot with at
least one character before it; `prefix_name` derives no identifier and
`prefix_.pdf` an empty one, so neither is grouped. -/
theorem c10_grouping_condition (w : Option Int) (entries : List DirectoryEntry)
    (e : DirectoryEntry) (he : e ∈ entries) (hinc : should_include w e = true)
    (hf : e.etype = EntryType.file) (hp : e.path ≠ []) :
    ((∃ k g, (k, g) ∈ (phase1 w entries).groups ∧ e ∈ g) ↔
      (∃ q r, splitFirst '_' e.name = some (q, r)
        ∧ ∃ a b, splitFirst '.' r = some (a, b) ∧ a ≠ []))
    ∧ extract_common_name "prefix_name".data = none
    ∧ extract_common_name "prefix_.pdf".data = some [] := by
  refine ⟨⟨?_, ?_⟩, by decide, by decide⟩
  · rintro ⟨k, g, hg, heg⟩
    rcases foldl_groups_sound w entries ⟨[], [], none, none⟩
      (fun k g hg => absurd hg (List.not_mem_nil _)) k g hg e heg with ⟨hxk, hk⟩
    cases hqr : splitFirst '_' e.name with
    | none => simp [extract_common_name, hqr] at hxk
    | some pr =>
      obtain ⟨q, r⟩ := pr
      cases hab : splitFirst '.' r with
      | none => simp [extract_common_name, hqr, hab] at hxk
      | some ab =>
        obtain ⟨a, b⟩ := ab
        have hak : a = k := by
          simpa [extract_common_name, hqr, hab] using hxk
        exact ⟨q, r, rfl, a, b, hab, by rw [hak]; exact hk⟩
  · rintro ⟨q, r, hqr, a, b, hab, ha⟩
    have hx : extract_common_name e.name = some a := by
      simp only [extract_common_name, hqr, hab]
    rcases foldl_grouped_of_cond w entries ⟨[], [], none, none⟩ e he hinc hf hp
      a hx ha with ⟨g', hg', heg⟩
    exact ⟨a, g', hg', heg⟩

/-- C10 witness: the grouping condition applied to the example json entry. -/
theorem c10_witness :
    ((∃ k g, (k, g) ∈ (phase1 none exEntries).groups ∧ eJson ∈ g) ↔
      (∃ q r, splitFirst '_' eJson.name = some (q, r)
        ∧ ∃ a b, splitFirst '.' r = some (a, b) ∧ a ≠ []))
    ∧ extract_common_name "prefix_name".data = none
    ∧ extract_common_name "prefix_.pdf".data = some [] :=
  c10_grouping_condition none exEntries eJson (by decide) (by decide) (by decide)
    (by decide)

/-! ### Characterizations of the group-processing and payload loops -/

theorem processGroups_eq (d : Str → FetchResult) (gm : Str → Option Str) (tempDir : Str)
    (gs : List (Str × List DirectoryEntry)) :
    processGroups d gm tempDir gs =
      ((sortedKeys gs).filter
          (fun k => groupHasJson (lookupGroup k gs) && groupHasPdf (lookupGroup k gs))).map
        (fun k => ⟨k, (List.insertionSort extLE (lookupGroup k gs)).map
          (stageFile d gm tempDir)⟩) := by
  have h := foldl_filter_append
    (fun k => groupHasJson (lookupGroup k gs) && groupHasPdf (lookupGroup k gs))
    (fun k => (⟨k, (List.insertionSort extLE (lookupGroup k gs)).map
      (stageFile d gm tempDir)⟩ : GroupInfo))
    (sortedKeys gs) []
  rw [List.nil_append] at h
  exact h

theorem buildPayloads_eq (groups : List GroupInfo) :
    buildPayloads groups =
      (groups.map
        (fun gi => (gi.files.filter payloadOk).map (mkPayload gi.common_name))).flatten := by
  have hinner : ∀ (gi : GroupInfo) (acc : List Payload),
      gi.files.foldl
        (fun acc2 fi => if payloadOk fi then acc2 ++ [mkPayload gi.common_name fi] else acc2)
        acc = acc ++ (gi.files.filter payloadOk).map (mkPayload gi.common_name) :=
    fun gi acc => foldl_filter_append payloadOk (mkPayload gi.common_name) gi.files acc
  unfold buildPayloads
  rw [List.foldl_ext _
    (fun acc gi => acc ++ (gi.files.filter payloadOk).map (mkPayload gi.common_name)) []
    (fun acc gi _ => hinner gi acc)]
  rw [foldl_append_flatten]
  rw [List.nil_append]

theorem mem_sortedKeys {gs : List (Str × List DirectoryEntry)} {k : Str} :
    k ∈ sortedKeys gs ↔ k ∈ keysOf gs :=
  List.mem_insertionSort pyStrLE

theorem sortedKeys_pairwise (gs : List (Str × List DirectoryEntry)) :
    (sortedKeys gs).Pairwise pyStrLE :=
  List.sorted_insertionSort pyStrLE (keysOf gs)

theorem sortedKeys_nodup {gs : List (Str × List DirectoryEntry)}
    (h : (keysOf gs).Nodup) : (sortedKeys gs).Nodup :=
  ((List.perm_insertionSort pyStrLE (keysOf gs)).nodup_iff).mpr h

theorem pairwise_lt_of_le_nodup {l : List Str} (hle : l.Pairwise pyStrLE)
    (hnd : l.Nodup) : l.Pairwise (fun a b => pyStrLt a b = true) := by
  have hand := hle.and hnd
  refine hand.imp ?_
  rintro a b ⟨h1, h2⟩
  rcases pyStrLt_connex h2 with h3 | h3
  · exact h3
  · have h1' : pyStrLt b a = false := h1
    rw [h3] at h1'
    cases h1'

theorem stageFile_entry (d : Str → FetchResult) (gm : Str → Option Str) (td : Str)
    (item : DirectoryEntry) : (stageFile d gm td item).entry = item := by
  unfold stageFile
  by_cases h : item.etype = EntryType.file
  · rw [if_pos h]
    cases d item.path <;> rfl
  · rw [if_neg h]

theorem filter_key_orderedInsert (n : Nat) (x : DirectoryEntry) :
    ∀ l : List DirectoryEntry,
      (List.orderedInsert extLE x l).filter (fun e => decide (sort_by_extension e = n)) =
        if sort_by_extension x = n
        then x :: l.filter (fun e => decide (sort_by_extension e = n))
        else l.filter (fun e => decide (sort_by_extension e = n))
  | [] => by
    by_cases hx : sort_by_extension x = n <;> simp [hx]
  | y :: ys => by
    by_cases hxy : extLE x y
    · rw [List.orderedInsert, if_pos hxy]
      by_cases hx : sort_by_extension x = n <;> simp [hx]
    · rw [List.orderedInsert, if_neg hxy]
      have hlt : sort_by_extension y < sort_by_extension x := by
        have h2 : ¬ sort_by_extension x ≤ sort_by_extension y := hxy
        omega
      have ih := filter_key_orderedInsert n x ys
      by_cases hx : sort_by_extension x = n
      · have hy : ¬ sort_by_extension y = n := by omega
        simp [hx, hy, ih]
      · by_cases hy : sort_by_extension y = n <;> simp [hx, hy, ih]

theorem filter_key_insertionSort (n : Nat) :
    ∀ l : List DirectoryEntry,
      (List.insertionSort extLE l).filter (fun e => decide (sort_by_extension e = n)) =
        l.filter (fun e => decide (sort_by_extension e = n))
  | [] => rfl
  | x :: xs => by
    rw [List.insertionSort, filter_key_orderedInsert n x (List.insertionSort extLE xs),
      filter_key_insertionSort n xs, List.filter_cons]
    by_cases hx : sort_by_extension x = n <;> simp [hx]

/-! ### C2: the completeness gate -/

/-- C2: a raw group is admitted iff it has at least one `.json` member and at
least one `.pdf` member (extensions lowercased); a group whose members all
have extension `.pdf` is never admitted. -/
theorem c2_completeness_gate (w : Option Int) (entries : List DirectoryEntry)
    (d : Str → FetchResult) (gm : Str → Option Str) (td : Str) (u : Bool) (k : Str) :
    ((∃ gi, gi ∈ (runPipeline w entries d gm td u).groups ∧ gi.common_name = k) ↔
      (k ∈ keysOf (phase1 w entries).groups
        ∧ groupHasJson (lookupGroup k (phase1 w entries).groups) = true
        ∧ groupHasPdf (lookupGroup k (phase1 w entries).groups) = true))
    ∧ ((∀ e ∈ lookupGroup k (phase1 w entries).groups, extOf e.name = ".pdf".data) →
        ¬ ∃ gi, gi ∈ (runPipeline w entries d gm td u).groups ∧ gi.common_name = k) := by
  have hrun : (runPipeline w entries d gm td u).groups
      = ((sortedKeys (phase1 w entries).groups).filter
          (fun k' => groupHasJson (lookupGroup k' (phase1 w entries).groups)
            && groupHasPdf (lookupGroup k' (phase1 w entries).groups))).map
        (fun k' => ⟨k', (List.insertionSort extLE
          (lookupGroup k' (phase1 w entries).groups)).map (stageFile d gm td)⟩) :=
    processGroups_eq d gm td (phase1 w entries).groups
  have hmain : (∃ gi, gi ∈ (runPipeline w entries d gm td u).groups ∧ gi.common_name = k) ↔
      (k ∈ keysOf (phase1 w entries).groups
        ∧ groupHasJson (lookupGroup k (phase1 w entries).groups) = true
        ∧ groupHasPdf (lookupGroup k (phase1 w entries).groups) = true) := by
    constructor
    · rintro ⟨gi, hgi, hname⟩
      rw [hrun] at hgi
      rcases List.mem_map.mp hgi with ⟨k', hk', hgi'⟩
      rcases List.mem_filter.mp hk' with ⟨hkmem, hkgate⟩
      have hkk : k' = k := by rw [← hname, ← hgi']
      subst hkk
      rcases Bool.and_eq_true_iff.mp hkgate with ⟨hjson, hpdf⟩
      exact ⟨mem_sortedKeys.mp hkmem, hjson, hpdf⟩
    · rintro ⟨hkmem, hjson, hpdf⟩
      refine ⟨⟨k, (List.insertionSort extLE (lookupGroup k (phase1 w entries).groups)).map
        (stageFile d gm td)⟩, ?_, rfl⟩
      rw [hrun]
      refine List.mem_map.mpr ⟨k, List.mem_filter.mpr ⟨mem_sortedKeys.mpr hkmem, ?_⟩, rfl⟩
      rw [hjson, hpdf]
      rfl
  refine ⟨hmain, fun hall hex => ?_⟩
  rcases hmain.mp hex with ⟨hkmem, hjson, hpdf⟩
  rcases List.any_eq_true.mp hjson with ⟨e, hemem, hejson⟩
  have he2 : extOf e.name = ".json".data := of_decide_eq_true hejson
  have he3 : extOf e.name = ".pdf".data := hall e hemem
  rw [he2] at he3
  exact absurd he3 (by decide)

/-- C2 witness: the pdf-only group `BB` is never admitted. -/
theorem c2_witness :
    ¬ ∃ gi, gi ∈ (runPipeline none exEntriesPdfOnly dEx gmEx tdEx true).groups
        ∧ gi.common_name = "BB".data :=
  (c2_completeness_gate none exEntriesPdfOnly dEx gmEx tdEx true "BB".data).2 (by decide)

/-! ### C4: member ordering -/

theorem map_entry_stage (d : Str → FetchResult) (gm : Str → Option Str) (td : Str)
    (l : List DirectoryEntry) :
    (l.map (stageFile d gm td)).map StagedFile.entry = l := by
  rw [List.map_map]
  have hcomp : StagedFile.entry ∘ stageFile d gm td = id :=
    funext (fun item => stageFile_entry d gm td item)
  rw [hcomp, List.map_id]

/-- C4: inside an admitted group the delivered member sequence is a
permutation of the raw group, its `sort_by_extension` priorities are
nondecreasing, members of equal priority keep their original listing order
(the sort is stable), and every `.json` member precedes every `.pdf` member. -/
theorem c4_member_ordering (w : Option Int) (entries : List DirectoryEntry)
    (d : Str → FetchResult) (gm : Str → Option Str) (td : Str) (u : Bool)
    (gi : GroupInfo) (hgi : gi ∈ (runPipeline w entries d gm td u).groups) :
    ((gi.files.map StagedFile.entry).Perm
        (lookupGroup gi.common_name (phase1 w entries).groups))
    ∧ (gi.files.map StagedFile.entry).Pairwise extLE
    ∧ (∀ n : Nat,
        (gi.files.map StagedFile.entry).filter (fun e => decide (sort_by_extension e = n))
          = (lookupGroup gi.common_name (phase1 w entries).groups).filter
              (fun e => decide (sort_by_extension e = n)))
    ∧ (∀ i j : Fin (gi.files.map StagedFile.entry).length,
        extOf ((gi.files.map StagedFile.entry).get i).name = ".json".data →
        extOf ((gi.files.map StagedFile.entry).get j).name = ".pdf".data →
        i < j) := by
  have hrun : (runPipeline w entries d gm td u).groups
      = ((sortedKeys (phase1 w entries).groups).filter
          (fun k' => groupHasJson (lookupGroup k' (phase1 w entries).groups)
            && groupHasPdf (lookupGroup k' (phase1 w entries).groups))).map
        (fun k' => ⟨k', (List.insertionSort extLE
          (lookupGroup k' (phase1 w entries).groups)).map (stageFile d gm td)⟩) :=
    processGroups_eq d gm td (phase1 w entries).groups
  rw [hrun] at hgi
  rcases List.mem_map.mp hgi with ⟨k, _, hgieq⟩
  have hname : gi.common_name = k := by rw [← hgieq]
  have hfiles : gi.files = (List.insertionSort extLE
      (lookupGroup k (phase1 w entries).groups)).map (stageFile d gm td) := by
    rw [← hgieq]
  rw [hname, hfiles, map_entry_stage]
  have hsorted : (List.insertionSort extLE
      (lookupGroup k (phase1 w entries).groups)).Pairwise extLE :=
    List.sorted_insertionSort extLE _
  refine ⟨List.perm_insertionSort extLE _, hsorted,
    fun n => filter_key_insertionSort n _, ?_⟩
  intro i j hjson hpdf
  by_contra hij
  push_neg at hij
  rcases lt_or_eq_of_le hij with hlt | heq
  · have hrel : extLE ((List.insertionSort extLE
        (lookupGroup k (phase1 w entries).groups)).get j)
        ((List.insertionSort extLE (lookupGroup k (phase1 w entries).groups)).get i) :=
      List.pairwise_iff_get.mp hsorted j i hlt
    have hkj : sort_by_extension ((List.insertionSort extLE
        (lookupGroup k (phase1 w entries).groups)).get j) = 1 := by
      unfold sort_by_extension
      rw [hpdf]
      decide
    have hki : sort_by_extension ((List.insertionSort extLE
        (lookupGroup k (phase1 w entries).groups)).get i) = 0 := by
      unfold sort_by_extension
      rw [hjson]
      decide
    have hle2 : sort_by_extension ((List.insertionSort extLE
        (lookupGroup k (phase1 w entries).groups)).get j)
        ≤ sort_by_extension ((List.insertionSort extLE
        (lookupGroup k (phase1 w entries).groups)).get i) := hrel
    omega
  · rw [heq] at hpdf
    rw [hjson] at hpdf
    exact absurd hpdf (by decide)

/-- C4 witness: the ordering properties at the example run's admitted group. -/
theorem c4_witness :
    ((exGroup.files.map StagedFile.entry).Perm
        (lookupGroup exGroup.common_name (phase1 none exEntries).groups))
    ∧ (exGroup.files.map StagedFile.entry).Pairwise extLE
    ∧ (∀ n : Nat,
        (exGroup.files.map StagedFile.entry).filter (fun e => decide (sort_by_extension e = n))
          = (lookupGroup exGroup.common_name (phase1 none exEntries).groups).filter
              (fun e => decide (sort_by_extension e = n)))
    ∧ (∀ i j : Fin (exGroup.files.map StagedFile.entry).length,
        extOf ((exGroup.files.map StagedFile.entry).get i).name = ".json".data →
        extOf ((exGroup.files.map StagedFile.entry).get j).name = ".pdf".data →
        i < j) :=
  c4_member_ordering none exEntries dEx gmEx tdEx true exGroup (by decide)

/-! ### C5: the delivered sequence -/

/-- C5 counterexample: in the example run the pdf member downloads
successfully with zero bytes, so it is staged (`download_success = true`) yet
not delivered; the payload sequence differs from the flattening filtered only
to `staged = true` that the claim describes. -/
theorem c5_counterexample :
    (runPipeline none exEntries dEx gmEx tdEx true).payloads ≠
      deliveredSpecStagedOnly (runPipeline none exEntries dEx gmEx tdEx true).groups := by
  decide

/-- C5 (amended): the delivered sequence equals the flattened per-group
envelopes over the admitted groups — groups in ascending lexicographic
identifier order, members in member order — filtered to the members with
`staged = true` AND a non-empty base64 payload (a staged zero-byte file is
excluded); one POST per payload when an endpoint is configured, none
otherwise. -/
theorem c5_delivered_sequence (w : Option Int) (entries : List DirectoryEntry)
    (d : Str → FetchResult) (gm : Str → Option Str) (td : Str) (u : Bool) :
    (runPipeline w entries d gm td u).payloads
        = deliveredSpec (runPipeline w entries d gm td u).groups
    ∧ ((runPipeline w entries d gm td u).groups.map GroupInfo.common_name).Pairwise
        (fun a b => pyStrLt a b = true)
    ∧ (runPipeline w entries d gm td u).posts
        = (if u then (runPipeline w entries d gm td u).payloads else []) := by
  refine ⟨?_, ?_, rfl⟩
  · show buildPayloads (processGroups d gm td (phase1 w entries).groups)
      = deliveredSpec (processGroups d gm td (phase1 w entries).groups)
    rw [buildPayloads_eq]
    rfl
  · show ((processGroups d gm td (phase1 w entries).groups).map GroupInfo.common_name).Pairwise
      (fun a b => pyStrLt a b = true)
    rw [processGroups_eq, List.map_map]
    have hid : (GroupInfo.common_name ∘ fun k => (⟨k, (List.insertionSort extLE
        (lookupGroup k (phase1 w entries).groups)).map (stageFile d gm td)⟩ : GroupInfo))
        = id := rfl
    rw [hid, List.map_id]
    exact (pairwise_lt_of_le_nodup (sortedKeys_pairwise _)
      (sortedKeys_nodup (foldl_keys_nodup w entries ⟨[], [], none, none⟩
        List.nodup_nil))).filter _

/-! ### C7: partial failure isolation -/

theorem stageFile_fail_of_path {d : Str → FetchResult} {gm : Str → Option Str} {td : Str}
    {item : DirectoryEntry} (h : ∀ c, d item.path ≠ FetchResult.ok c) :
    (stageFile d gm td item).download_success = false := by
  unfold stageFile
  by_cases hf : item.etype = EntryType.file
  · rw [if_pos hf]
    cases hd : d item.path with
    | downloadFail => rfl
    | readFail => rfl
    | ok c => exact absurd hd (h c)
  · rw [if_neg hf]

theorem payloadOk_false_of_fail {fi : StagedFile} (h : fi.download_success = false) :
    payloadOk fi = false := by
  unfold payloadOk
  rw [h]
  rfl

theorem stageFile_congr {d d2 : Str → FetchResult} (gm : Str → Option Str) (td : Str)
    {item : DirectoryEntry} (h : d2 item.path = d item.path) :
    stageFile d2 gm td item = stageFile d gm td item := by
  unfold stageFile
  rw [h]

theorem payloads_files_filter (p : Str) (fr : FetchResult) (hfr : ∀ c, fr ≠ FetchResult.ok c)
    (d : Str → FetchResult) (gm : Str → Option Str) (td : Str) (k : Str) :
    ∀ l : List DirectoryEntry,
      ((l.map (stageFile (fun q => if q = p then fr else d q) gm td)).filter payloadOk).map
          (mkPayload k)
        = (((l.map (stageFile d gm td)).filter payloadOk).map (mkPayload k)).filter
            (fun pl => !(pl.smb_path == p))
  | [] => rfl
  | m :: l => by
    have ih := payloads_files_filter p fr hfr d gm td k l
    have hpath : (mkPayload k (stageFile d gm td m)).smb_path = m.path := by
      show (stageFile d gm td m).entry.path = m.path
      rw [stageFile_entry]
    simp only [List.map_cons, List.filter_cons]
    by_cases hmp : m.path = p
    · have hfail : (stageFile (fun q => if q = p then fr else d q) gm td m).download_success
          = false := by
        apply stageFile_fail_of_path
        intro c hc
        have hc2 : (if m.path = p then fr else d m.path) = FetchResult.ok c := hc
        rw [if_pos hmp] at hc2
        exact hfr c hc2
      have hdrop : payloadOk (stageFile (fun q => if q = p then fr else d q) gm td m)
          = false := payloadOk_false_of_fail hfail
      by_cases hok : payloadOk (stageFile d gm td m) = true
      · have hbeq : ((mkPayload k (stageFile d gm td m)).smb_path == p) = true := by
          rw [hpath, hmp]
          exact beq_self_eq_true p
        simp [hdrop, hok, hbeq, ih]
      · simp [hdrop, hok, ih]
    · have heqd : (fun q => if q = p then fr else d q) m.path = d m.path := by
        show (if m.path = p then fr else d m.path) = d m.path
        rw [if_neg hmp]
      have heq : stageFile (fun q => if q = p then fr else d q) gm td m
          = stageFile d gm td m := stageFile_congr gm td heqd
      rw [heq]
      by_cases hok : payloadOk (stageFile d gm td m) = true
      · have hbeq : ((mkPayload k (stageFile d gm td m)).smb_path == p) = false := by
          rw [hpath]
          exact beq_eq_false_iff_ne.mpr hmp
        simp [hok, hbeq, ih]
      · simp [hok, ih]

/-- C7: when a single path's fetch is made to fail (download or read/encode),
only the payloads of that path disappear from the delivered sequence; the
persisted watermark is unchanged and the run still ends with exit code 0. -/
theorem c7_failure_isolation (w : Option Int) (entries : List DirectoryEntry)
    (d : Str → FetchResult) (gm : Str → Option Str) (td : Str) (u : Bool)
    (p : Str) (fr : FetchResult) (hfr : ∀ c, fr ≠ FetchResult.ok c) :
    (runPipeline w entries (fun q => if q = p then fr else d q) gm td u).payloads
        = (runPipeline w entries d gm td u).payloads.filter (fun pl => !(pl.smb_path == p))
    ∧ (runPipeline w entries (fun q => if q = p then fr else d q) gm td u).savedWatermark
        = (runPipeline w entries d gm td u).savedWatermark
    ∧ (runPipeline w entries (fun q => if q = p then fr else d q) gm td u).exitCode = 0 := by
  refine ⟨?_, rfl, rfl⟩
  show buildPayloads (processGroups (fun q => if q = p then fr else d q) gm td
        (phase1 w entries).groups)
      = (buildPayloads (processGroups d gm td (phase1 w entries).groups)).filter
          (fun pl => !(pl.smb_path == p))
  rw [buildPayloads_eq, buildPayloads_eq, processGroups_eq, processGroups_eq,
    List.filter_flatten, List.map_map, List.map_map, List.map_map]
  congr 1
  apply List.map_congr_left
  intro k _
  exact payloads_files_filter p fr hfr d gm td k
    (List.insertionSort extLE (lookupGroup k (phase1 w entries).groups))

/-- C7 witness: failing the example pdf path removes exactly its payload while
watermark and exit code are unchanged. -/
theorem c7_witness :
    (runPipeline none exEntries
        (fun q => if q = "/dir/20250101000000_AA.pdf".data then FetchResult.downloadFail
          else dEx q) gmEx tdEx true).payloads
      = (runPipeline none exEntries dEx gmEx tdEx true).payloads.filter
          (fun pl => !(pl.smb_path == "/dir/20250101000000_AA.pdf".data))
    ∧ (runPipeline none exEntries
        (fun q => if q = "/dir/20250101000000_AA.pdf".data then FetchResult.downloadFail
          else dEx q) gmEx tdEx true).savedWatermark
      = (runPipeline none exEntries dEx gmEx tdEx true).savedWatermark
    ∧ (runPipeline none exEntries
        (fun q => if q = "/dir/20250101000000_AA.pdf".data then FetchResult.downloadFail
          else dEx q) gmEx tdEx true).exitCode = 0 :=
  c7_failure_isolation none exEntries dEx gmEx tdEx true
    "/dir/20250101000000_AA.pdf".data FetchResult.downloadFail
    (fun c h => FetchResult.noConfusion h)

/-! ### C9: zero-byte exclusion -/

theorem mem_buildPayloads_blob {groups : List GroupInfo} {pl : Payload}
    (h : pl ∈ buildPayloads groups) : pl.blob ≠ [] := by
  rw [buildPayloads_eq] at h
  rcases List.mem_flatten.mp h with ⟨l, hl, hpl⟩
  rcases List.mem_map.mp hl with ⟨gi, _, hleq⟩
  subst hleq
  rcases List.mem_map.mp hpl with ⟨fi, hfi, hpleq⟩
  rcases List.mem_filter.mp hfi with ⟨_, hok⟩
  subst hpleq
  unfold payloadOk at hok
  rcases Bool.and_eq_true_iff.mp hok with ⟨_, hblob⟩
  cases hb : fi.blob with
  | none => rw [hb] at hblob; cases hblob
  | some s =>
    rw [hb] at hblob
    simp only [Bool.not_eq_true'] at hblob
    have hs : s ≠ [] := by
      intro hs0
      rw [hs0] at hblob
      simp at hblob
    show fi.blob.getD [] ≠ []
    rw [hb]
    simpa using hs

/-- C9: an admitted-group member whose download succeeds with empty content is
marked staged (`download_success = true`) with the empty string as its base64
payload, yet fails the delivery filter; and every delivered payload carries a
non-empty blob, so the member is excluded from the delivered sequence. -/
theorem c9_zero_byte (w : Option Int) (entries : List DirectoryEntry)
    (d : Str → FetchResult) (gm : Str → Option Str) (td : Str) (u : Bool)
    (gi : GroupInfo) (fi : StagedFile)
    (hgi : gi ∈ (runPipeline w entries d gm td u).groups) (hfi : fi ∈ gi.files)
    (hft : fi.entry.etype = EntryType.file)
    (hd : d fi.entry.path = FetchResult.ok []) :
    fi.download_success = true ∧ fi.blob = some [] ∧ payloadOk fi = false
    ∧ mkPayload gi.common_name fi ∉ (runPipeline w entries d gm td u).payloads
    ∧ (∀ pl ∈ (runPipeline w entries d gm td u).payloads, pl.blob ≠ []) := by
  have hrun : (runPipeline w entries d gm td u).groups
      = ((sortedKeys (phase1 w entries).groups).filter
          (fun k' => groupHasJson (lookupGroup k' (phase1 w entries).groups)
            && groupHasPdf (lookupGroup k' (phase1 w entries).groups))).map
        (fun k' => ⟨k', (List.insertionSort extLE
          (lookupGroup k' (phase1 w entries).groups)).map (stageFile d gm td)⟩) :=
    processGroups_eq d gm td (phase1 w entries).groups
  rw [hrun] at hgi
  rcases List.mem_map.mp hgi with ⟨k, _, hgieq⟩
  have hfiles : gi.files = (List.insertionSort extLE
      (lookupGroup k (phase1 w entries).groups)).map (stageFile d gm td) := by
    rw [← hgieq]
  rw [hfiles] at hfi
  rcases List.mem_map.mp hfi with ⟨m, _, hfieq⟩
  have hent : fi.entry = m := by
    rw [← hfieq, stageFile_entry]
  rw [hent] at hft hd
  have hstage : fi = ⟨m, some (td ++ '/' :: basenameOf m.path), true, some [],
      some ((gm (td ++ '/' :: basenameOf m.path)).getD "application/octet-stream".data)⟩ := by
    rw [← hfieq]
    unfold stageFile
    rw [if_pos hft, hd]
    rfl
  have hall : ∀ pl ∈ (runPipeline w entries d gm td u).payloads, pl.blob ≠ [] := by
    intro pl hpl
    exact mem_buildPayloads_blob
      (show pl ∈ buildPayloads (processGroups d gm td (phase1 w entries).groups) from hpl)
  refine ⟨by rw [hstage], by rw [hstage], by rw [hstage]; rfl, ?_, hall⟩
  intro hmem
  have hne := hall (mkPayload gi.common_name fi) hmem
  have hblob : (mkPayload gi.common_name fi).blob = [] := by
    show fi.blob.getD [] = []
    rw [hstage]
    rfl
  exact hne hblob

/-- C9 witness: in the example run the empty pdf is staged, its blob is the
empty string, it fails the delivery filter, and all delivered payloads have
non-empty blobs. -/
theorem c9_witness :
    (stageFile dEx gmEx tdEx ePdf).download_success = true
    ∧ (stageFile dEx gmEx tdEx ePdf).blob = some []
    ∧ payloadOk (stageFile dEx gmEx tdEx ePdf) = false
    ∧ mkPayload exGroup.common_name (stageFile dEx gmEx tdEx ePdf)
        ∉ (runPipeline none exEntries dEx gmEx tdEx true).payloads
    ∧ (∀ pl ∈ (runPipeline none exEntries dEx gmEx tdEx true).payloads, pl.blob ≠ []) :=
  c9_zero_byte none exEntries dEx gmEx tdEx true exGroup
    (stageFile dEx gmEx tdEx ePdf) (by decide) (by decide) (by decide) (by decide)

end SmbRead
